import Mathlib

/-!
Shallow embedding of the conversion pipeline of `src/convert-document.tsx`
(repository plutotom/raycast-proctors-utils).

The TypeScript source is modelled as follows.

* Paths, file contents and format specifiers are `String`s (`List Char`
  underneath); byte buffers are modelled as `String` contents.
* `path.extname`, `path.basename`, `path.dirname` (Node, posix) are
  translated as executable functions on the character list of the path.
* The filesystem is an association list from path to contents; a write
  prepends, so a later write to the same path shadows an earlier one
  (silent overwrite, as `fs.writeFileSync` does).
* The external converter (`convertAsync` of libreoffice-convert), the
  clipboard call and the reveal call are oracles passed in as functions
  returning `Except`: `Except.error` models a thrown exception.
* Every filesystem read, converter invocation and filesystem write of the
  conversion core is recorded in an event trace, so that claims about
  "no side effects before failing" and call order are statable.
-/

namespace ConvertDoc

/-- ASCII lower-casing of one character, the behaviour of JavaScript
`toLowerCase` on the ASCII extension strings this program compares. -/
def lowerChar (c : Char) : Char :=
  if 'A' ≤ c ∧ c ≤ 'Z' then Char.ofNat (c.toNat + 32) else c

/-- Lower-case every character of a string (`String.prototype.toLowerCase`
restricted to ASCII, which is all the catalog keys use). -/
def toLowerStr (s : String) : String :=
  String.mk (s.data.map lowerChar)

/-- The characters of the path, reversed, with the run of trailing
separators removed; Node's `extname`/`basename` skip trailing slashes. -/
def trailStripped (p : String) : List Char :=
  p.data.reverse.dropWhile (fun c => c = '/')

/-- The reversed characters of the last path segment once trailing slashes
are skipped: what Node `path.basename` returns, reversed. -/
def rseg (p : String) : List Char :=
  (trailStripped p).takeWhile (fun c => c ≠ '/')

/-- Core of Node `path.extname` on the (reversed) basename characters:
the extension runs from the last dot of the basename, is empty when the
basename has no dot or starts with its only dot (a hidden file), and the
basename ".." has no extension. -/
def extCore (r : List Char) : List Char :=
  if r.reverse = ['.', '.'] then [] else
  match r.dropWhile (fun c => c ≠ '.') with
  | [] => []
  | _ :: pre =>
    if pre = [] then [] else '.' :: (r.takeWhile (fun c => c ≠ '.')).reverse

/-- Node `path.extname` of a path (posix). -/
def extname (p : String) : String :=
  String.mk (extCore (rseg p))

/-- `getExtension` of the source: `path.extname(filePath).toLowerCase()`. -/
def getExtension (filePath : String) : String :=
  toLowerStr (extname filePath)

/-- Node `path.basename` of a path (posix). -/
def basename (p : String) : String :=
  String.mk (rseg p).reverse

/-- The basename with its `extname` suffix removed (the stem, Node
`path.parse(p).name`); the spec states output stems in these terms. -/
def stemOf (p : String) : String :=
  String.mk (((rseg p).reverse).take ((rseg p).length - (extCore (rseg p)).length))

/-- Node `path.dirname` of a path (posix): strip trailing slashes, strip the
last segment, strip the separator before it; `/` or `.` when nothing is
left, `//` in Node's special double-slash-root case. -/
def dirname (p : String) : String :=
  match (p.data.reverse.dropWhile (fun c => c = '/')).dropWhile (fun c => c ≠ '/') with
  | [] => if p.data.head? = some '/' then "/" else "."
  | _ :: t => if t = [] then "/" else if t = ['/'] then "//" else String.mk t.reverse

/-- `SUPPORTED_FORMATS` of the source: extension-keyed record of the legal
output format specifiers. -/
def SUPPORTED_FORMATS (ext : String) : Option (List String) :=
  if ext = ".doc" then some [".pdf", ".docx", ".pdf+.docx"]
  else if ext = ".docx" then some [".pdf", ".doc", ".pdf+.doc"]
  else none

/-- `FORMAT_LABELS` of the source: display label of each specifier. -/
def FORMAT_LABELS (fmt : String) : Option String :=
  if fmt = ".pdf" then some ("PDF")
  else if fmt = ".doc" then some ("Word Document (.doc)")
  else if fmt = ".docx" then some ("Word Document (.docx)")
  else if fmt = ".pdf+.docx" then some ("Both (PDF + DOCX)")
  else if fmt = ".pdf+.doc" then some ("Both (PDF + DOC)")
  else none

/-- `isSupportedFile` of the source: the extension is a key of
`SUPPORTED_FORMATS` (`ext in SUPPORTED_FORMATS`). -/
def isSupportedFile (filePath : String) : Bool :=
  (SUPPORTED_FORMATS (getExtension filePath)).isSome

/-- `getOutputFormats` of the source: `SUPPORTED_FORMATS[ext] || []`. -/
def getOutputFormats (filePath : String) : List String :=
  (SUPPORTED_FORMATS (getExtension filePath)).getD []

/-- JavaScript `String.prototype.split` with a one-character separator,
on character lists; always returns at least one piece. -/
def splitOnChar (sep : Char) : List Char → List (List Char)
  | [] => [[]]
  | a :: t =>
    let r := splitOnChar sep t
    if a = sep then [] :: r else (a :: r.headD []) :: r.tail

/-- `outputFormat.split("+")` of the source, as strings. -/
def splitFormats (spec : String) : List String :=
  (splitOnChar '+' spec.data).map String.mk

/-- `outputFormat.includes("+")` of the source: membership of the plus
character in the specifier. -/
def hasPlus (spec : String) : Bool :=
  spec.data.contains '+'

/-- Output-path derivation of `convertDocument`:
`inputPath.replace(/\.[^.]+$/, outputFormat)`. The regex matches from the
last dot of the whole path when at least one non-dot character follows it
to the end of the string; with no match the path is returned unchanged. -/
def replaceExt (inputPath outputFormat : String) : String :=
  match inputPath.data.reverse.dropWhile (fun c => c ≠ '.') with
  | [] => inputPath
  | _ :: pre =>
    if inputPath.data.reverse.takeWhile (fun c => c ≠ '.') = [] then inputPath
    else String.mk pre.reverse ++ outputFormat

/-- Lookup in an association list of (path, contents); the first binding
for a path wins, so prepending models an overwriting write. -/
def lookupFS : List (String × String) → String → Option String
  | [], _ => none
  | (k, v) :: t, q => if k = q then some v else lookupFS t q

/-- The filesystem as the conversion core observes it: a finite map from
path to contents. -/
structure FS where
  files : List (String × String)
deriving DecidableEq

/-- `fs.readFileSync`: the contents at a path, `none` when absent (the
read then throws). -/
def FS.read (fs : FS) (p : String) : Option String :=
  lookupFS fs.files p

/-- `fs.writeFileSync`: store contents at a path, silently overwriting
any existing file there. -/
def FS.write (fs : FS) (p c : String) : FS :=
  ⟨(p, c) :: fs.files⟩

/-- One observable side effect of the conversion core: a filesystem read,
an external-converter invocation, or a filesystem write. -/
inductive Event where
  | read (p : String)
  | convCall (fmt : String)
  | write (p : String)
deriving DecidableEq

/-- The failures the conversion core can surface. `fsReadError` models the
exception of `readFileSync`, `converterError` the rejection of
`convertAsync` with the thrown message. `unsupportedFormat` is the
`UnsupportedFormat` failure named by the specification's error taxonomy;
the translated code has no construct that produces it, and carrying the
constructor makes claims that mention it statable. -/
inductive ConvErr where
  | fsReadError
  | converterError (msg : String)
  | unsupportedFormat
deriving DecidableEq

/-- The message `handleConvert`'s catch block surfaces in the failure
toast (`error.message`); the message of a filesystem read error comes from
the host and is modelled by a fixed string. -/
def errMessage : ConvErr → String
  | ConvErr.fsReadError => "filesystem read error"
  | ConvErr.converterError m => m
  | ConvErr.unsupportedFormat => "unsupported format"

/-- The external converter (`convertAsync` of libreoffice-convert) as an
oracle: input contents and target format to output contents, or a thrown
error message. -/
abbrev Conv := String → String → Except String String

/-- `convertDocument` of the source: read the input file, invoke the
converter, derive the output path by replacing the extension, write the
result there. The first component is the trace of side effects performed,
including those before a failure. -/
def convertDocument (conv : Conv) (fs : FS) (inputPath outputFormat : String) :
    List Event × FS × Except ConvErr String :=
  match fs.read inputPath with
  | none => ([Event.read inputPath], fs, Except.error ConvErr.fsReadError)
  | some inputBuffer =>
    match conv inputBuffer outputFormat with
    | Except.error m =>
      ([Event.read inputPath, Event.convCall outputFormat], fs,
        Except.error (ConvErr.converterError m))
    | Except.ok outputBuffer =>
      ([Event.read inputPath, Event.convCall outputFormat,
         Event.write (replaceExt inputPath outputFormat)],
        fs.write (replaceExt inputPath outputFormat) outputBuffer,
        Except.ok (replaceExt inputPath outputFormat))

/-- `convertDocumentMultiple` of the source: one `convertDocument` call per
format, sequential and in order, accumulating output paths; the first
failure stops the loop and rethrows, keeping the writes already done. -/
def convertDocumentMultiple (conv : Conv) (fs : FS) (inputPath : String) :
    List String → List Event × FS × Except ConvErr (List String)
  | [] => ([], fs, Except.ok [])
  | format :: rest =>
    match convertDocument conv fs inputPath format with
    | (ev, fs1, Except.error e) => (ev, fs1, Except.error e)
    | (ev, fs1, Except.ok o) =>
      match convertDocumentMultiple conv fs1 inputPath rest with
      | (ev2, fs2, Except.error e) => (ev ++ ev2, fs2, Except.error e)
      | (ev2, fs2, Except.ok os) => (ev ++ ev2, fs2, Except.ok (o :: os))

/-- The conversion branch of `handleConvert` (source lines 209 to 216): a
specifier containing "+" is split and run through
`convertDocumentMultiple`; otherwise one `convertDocument` call yields a
one-element output list. No validation of the specifier happens here. -/
def convertJob (conv : Conv) (fs : FS) (selectedFile outputFormat : String) :
    List Event × FS × Except ConvErr (List String) :=
  if hasPlus outputFormat then
    convertDocumentMultiple conv fs selectedFile (splitFormats outputFormat)
  else
    match convertDocument conv fs selectedFile outputFormat with
    | (ev, fs1, Except.error e) => (ev, fs1, Except.error e)
    | (ev, fs1, Except.ok o) => (ev, fs1, Except.ok [o])

/-- The formats `convertJob` runs, in order. -/
def specFormats (outputFormat : String) : List String :=
  if hasPlus outputFormat then splitFormats outputFormat else [outputFormat]

/-- What the user observes of `handleConvert` after the conversion branch:
the final toast (style and message), and whether the clipboard copy, the
HUD and the automatic reveal happened. -/
structure PublishOutcome where
  toastSuccess : Bool
  toastMessage : String
  clipboardCopied : Bool
  hudShown : Bool
  revealed : Bool
deriving DecidableEq

/-- The tail of `handleConvert`'s try block after a successful conversion
(source lines 218 to 238), with the catch block: copy the output paths to
the clipboard, then set the success toast, show the HUD and open the
output directory; a throw anywhere lands in the catch, which turns the
toast into a failure with the thrown message. -/
def afterConvert (clip : List String → Except String Unit)
    (reveal : String → Except String Unit) (outputPaths : List String) :
    PublishOutcome :=
  match clip outputPaths with
  | Except.error m => ⟨false, m, false, false, false⟩
  | Except.ok _ =>
    match reveal (dirname (outputPaths.headD "")) with
    | Except.error m => ⟨false, m, true, true, false⟩
    | Except.ok _ =>
      ⟨true,
        String.intercalate (", ") (outputPaths.map basename) ++ " (copied to clipboard)",
        true, true, true⟩

/-- `handleConvert` of the source, from the missing-selection guard to the
final toast: `selectedFile = ""` models a null selection. -/
def handleConvert (conv : Conv) (clip : List String → Except String Unit)
    (reveal : String → Except String Unit) (fs : FS)
    (selectedFile outputFormat : String) :
    List Event × FS × PublishOutcome :=
  if selectedFile = "" ∨ outputFormat = "" then
    ([], fs, ⟨false, "Please select a file and output format", false, false, false⟩)
  else
    match convertJob conv fs selectedFile outputFormat with
    | (ev, fs1, Except.error e) => (ev, fs1, ⟨false, errMessage e, false, false, false⟩)
    | (ev, fs1, Except.ok outputPaths) => (ev, fs1, afterConvert clip reveal outputPaths)

/-- `isLibreOfficeInstalled` of the source: the probing `execSync` call is
an oracle; a throw is caught and collapsed to `false`. -/
def isLibreOfficeInstalled (probeExec : Except String Unit) : Bool :=
  match probeExec with
  | Except.ok _ => true
  | Except.error _ => false

/-- The single-quote character, written by code point to keep it out of
the literals of this file. -/
def sqChar : Char := Char.ofNat 39

/-- A one-character string holding the single quote. -/
def sq : String := String.mk [sqChar]

/-- The AppleScript literal `copyFilesToClipboard` builds for one path:
`POSIX file "p"`, the path interpolated verbatim with no escaping. -/
def posixFileLit (p : String) : String :=
  "POSIX file \"" ++ p ++ "\""

/-- The AppleScript program `copyFilesToClipboard` builds:
`set the clipboard to \x7b...\x7d` around the comma-joined literals. -/
def clipboardScript (filePaths : List String) : String :=
  "set the clipboard to \x7b" ++
    String.intercalate (", ") (filePaths.map posixFileLit) ++ "\x7d"

/-- The shell command `copyFilesToClipboard` passes to `execSync`:
the script wrapped in single quotes after `osascript -e `. -/
def copyFilesToClipboardCmd (filePaths : List String) : String :=
  "osascript -e " ++ sq ++ clipboardScript filePaths ++ sq

/-- How a POSIX shell reads the single-quoted argument of the generated
command: the characters strictly between the first single quote and the
next one. -/
def shellSingleQuotedArg (cmd : String) : String :=
  String.mk (((cmd.data.dropWhile (fun c => c ≠ sqChar)).drop 1).takeWhile
    (fun c => c ≠ sqChar))

/-- How AppleScript reads the first double-quoted string literal of a
program: the characters strictly between the first double quote and the
next one. -/
def firstDoubleQuoted (s : String) : String :=
  String.mk (((s.data.dropWhile (fun c => c ≠ '"')).drop 1).takeWhile
    (fun c => c ≠ '"'))

/-- The format of a converter-call event, for reading call order off a
trace. -/
def convCallFmt : Event → Option String
  | Event.convCall f => some f
  | _ => none

/-- Equality of `Except` results is decidable, so concrete runs can be
checked by evaluation. -/
instance {ε α : Type} [DecidableEq ε] [DecidableEq α] : DecidableEq (Except ε α) := fun
  | Except.ok a, Except.ok b =>
    if h : a = b then Decidable.isTrue (congrArg Except.ok h)
    else Decidable.isFalse (fun hh => h (Except.ok.inj hh))
  | Except.ok _, Except.error _ => Decidable.isFalse (fun hh => Except.noConfusion hh)
  | Except.error _, Except.ok _ => Decidable.isFalse (fun hh => Except.noConfusion hh)
  | Except.error e, Except.error e2 =>
    if h : e = e2 then Decidable.isTrue (congrArg Except.error h)
    else Decidable.isFalse (fun hh => h (Except.error.inj hh))

/-! ### Concrete fixtures used by counterexamples and witnesses -/

/-- A converter oracle that always succeeds, prefixing the target format
to a marker. -/
def convOk : Conv := fun _ f => Except.ok (("OUT") ++ f)

/-- A converter oracle that succeeds on `.pdf` and throws on every other
format. -/
def convPdfOnly : Conv := fun _ f =>
  if f = ".pdf" then Except.ok ("P") else Except.error ("boom")

/-- A filesystem holding one unsupported file. -/
def fsTxt : FS := ⟨[(("/tmp/a.txt"), ("DATA"))]⟩

/-- A filesystem holding one supported document. -/
def fsDocx : FS := ⟨[(("/d/r.docx"), ("X"))]⟩

/-- A clipboard oracle that always throws. -/
def clipFail : List String → Except String Unit := fun _ => Except.error ("clipboard error")

/-- A clipboard oracle that always succeeds. -/
def clipOk : List String → Except String Unit := fun _ => Except.ok ()

/-- A reveal oracle that always succeeds. -/
def revealOk : String → Except String Unit := fun _ => Except.ok ()

/-- A reveal oracle that always throws. -/
def revealFail : String → Except String Unit := fun _ => Except.error ("open failed")

/-! ### List helpers used by the proofs -/

theorem tw_append {α} {p : α → Bool} {l r : List α} (h : ∀ a ∈ l, p a = true) :
    (l ++ r).takeWhile p = l ++ r.takeWhile p := by
  induction l with
  | nil => simp
  | cons a t ih =>
    have ha := h a (List.mem_cons_self a t)
    simp only [List.cons_append, List.takeWhile_cons, ha, if_true]
    rw [ih (fun b hb => h b (List.mem_cons_of_mem a hb))]

theorem dw_append {α} {p : α → Bool} {l r : List α} (h : ∀ a ∈ l, p a = true) :
    (l ++ r).dropWhile p = r.dropWhile p := by
  induction l with
  | nil => simp
  | cons a t ih =>
    have ha := h a (List.mem_cons_self a t)
    simp only [List.cons_append, List.dropWhile_cons, ha, if_true]
    exact ih (fun b hb => h b (List.mem_cons_of_mem a hb))

theorem tw_cons_neg {α} {p : α → Bool} {a : α} {l : List α} (h : p a = false) :
    (a :: l).takeWhile p = [] := by
  simp [List.takeWhile_cons, h]

theorem dw_cons_neg {α} {p : α → Bool} {a : α} {l : List α} (h : p a = false) :
    (a :: l).dropWhile p = a :: l := by
  simp [List.dropWhile_cons, h]

theorem dw_head {α} {p : α → Bool} :
    ∀ {l : List α} {a : α} {t : List α}, l.dropWhile p = a :: t → p a = false := by
  intro l
  induction l with
  | nil => intro a t h; cases h
  | cons b m ih =>
    intro a t h
    by_cases hb : p b
    · exact ih (by simpa [List.dropWhile_cons, hb] using h)
    · rw [List.dropWhile_cons, if_neg hb] at h
      cases h
      exact Bool.not_eq_true _ ▸ (by simpa using hb)

theorem dw_ne_nil {α} {p : α → Bool} {c : α} :
    ∀ {l : List α}, c ∈ l → p c = false → l.dropWhile p ≠ [] := by
  intro l
  induction l with
  | nil => intro h; cases h
  | cons a t ih =>
    intro hc hpc
    by_cases ha : p a
    · rw [List.dropWhile_cons, if_pos ha]
      rcases List.mem_cons.mp hc with h | h
      · subst h; rw [ha] at hpc; cases hpc
      · exact ih h hpc
    · rw [List.dropWhile_cons, if_neg ha]; simp

theorem tw_lt_of_mem {α} {p : α → Bool} {c : α} :
    ∀ {l : List α}, c ∈ l → p c = false → (l.takeWhile p).length < l.length := by
  intro l
  induction l with
  | nil => intro h; cases h
  | cons a t ih =>
    intro hc hpc
    by_cases ha : p a
    · rw [List.takeWhile_cons, if_pos ha]
      rcases List.mem_cons.mp hc with h | h
      · subst h; rw [ha] at hpc; cases hpc
      · simpa using ih h hpc
    · rw [List.takeWhile_cons, if_neg ha]; simp

theorem tw_le {α} {p : α → Bool} : ∀ l : List α, (l.takeWhile p).length ≤ l.length := by
  intro l
  induction l with
  | nil => simp
  | cons a t ih =>
    by_cases ha : p a
    · rw [List.takeWhile_cons, if_pos ha]
      simpa using ih
    · rw [List.takeWhile_cons, if_neg ha]
      simp

theorem mem_of_mem_tw {α} {p : α → Bool} {a : α} :
    ∀ {l : List α}, a ∈ l.takeWhile p → a ∈ l := by
  intro l
  induction l with
  | nil => intro h; simp at h
  | cons b t ih =>
    intro h
    by_cases hb : p b
    · rw [List.takeWhile_cons, if_pos hb] at h
      rcases List.mem_cons.mp h with h | h
      · simp [h]
      · exact List.mem_cons_of_mem b (ih h)
    · rw [List.takeWhile_cons, if_neg hb] at h
      cases h

/-! ### Specialisations to the character predicates the path functions use -/

theorem dw_eq_all {ch : Char} {l r : List Char} (h : ∀ c ∈ l, c = ch) :
    (l ++ r).dropWhile (fun c => c = ch) = r.dropWhile (fun c => c = ch) :=
  @dw_append Char (fun c => c = ch) l r (fun a ha => decide_eq_true (h a ha))

theorem dw_eq_stop {ch m : Char} (hm : m ≠ ch) (r : List Char) :
    (m :: r).dropWhile (fun c => c = ch) = m :: r :=
  @dw_cons_neg Char (fun c => c = ch) m r (decide_eq_false hm)

theorem dw_ne_all {ch : Char} {l r : List Char} (h : ∀ c ∈ l, c ≠ ch) :
    (l ++ r).dropWhile (fun c => c ≠ ch) = r.dropWhile (fun c => c ≠ ch) :=
  @dw_append Char (fun c => c ≠ ch) l r (fun a ha => decide_eq_true (h a ha))

theorem dw_ne_stop {ch : Char} (r : List Char) :
    (ch :: r).dropWhile (fun c => c ≠ ch) = ch :: r :=
  @dw_cons_neg Char (fun c => c ≠ ch) ch r (by simp)

theorem tw_ne_all {ch : Char} {l r : List Char} (h : ∀ c ∈ l, c ≠ ch) :
    (l ++ r).takeWhile (fun c => c ≠ ch) = l ++ r.takeWhile (fun c => c ≠ ch) :=
  @tw_append Char (fun c => c ≠ ch) l r (fun a ha => decide_eq_true (h a ha))

theorem tw_ne_stop {ch : Char} (r : List Char) :
    (ch :: r).takeWhile (fun c => c ≠ ch) = [] :=
  @tw_cons_neg Char (fun c => c ≠ ch) ch r (by simp)

theorem mem_tw_eq {ch : Char} {l : List Char} {c : Char}
    (hc : c ∈ l.takeWhile (fun c => c = ch)) : c = ch :=
  of_decide_eq_true (@List.mem_takeWhile_imp Char (fun c => c = ch) l c hc)

theorem mem_tw_ne {ch : Char} {l : List Char} {c : Char}
    (hc : c ∈ l.takeWhile (fun c => c ≠ ch)) : c ≠ ch :=
  of_decide_eq_true (@List.mem_takeWhile_imp Char (fun c => c ≠ ch) l c hc)

theorem dw_ne_head {ch : Char} {l : List Char} {a : Char} {t : List Char}
    (h : l.dropWhile (fun c => c ≠ ch) = a :: t) : a = ch := by
  have h1 := @dw_head Char (fun c => c ≠ ch) l a t h
  simp only [decide_eq_false_iff_not, ne_eq, not_not] at h1
  exact h1

theorem dw_ne_ne_nil {ch : Char} {l : List Char} (hc : ch ∈ l) :
    l.dropWhile (fun c => c ≠ ch) ≠ [] :=
  @dw_ne_nil Char (fun c => c ≠ ch) ch l hc (by simp)

theorem tw_ne_lt {ch : Char} {l : List Char} (hc : ch ∈ l) :
    (l.takeWhile (fun c => c ≠ ch)).length < l.length :=
  @tw_lt_of_mem Char (fun c => c ≠ ch) ch l hc (by simp)

theorem twdw_eq (ch : Char) (l : List Char) :
    l.takeWhile (fun c => c = ch) ++ l.dropWhile (fun c => c = ch) = l :=
  List.takeWhile_append_dropWhile _ _

theorem twdw_ne (ch : Char) (l : List Char) :
    l.takeWhile (fun c => c ≠ ch) ++ l.dropWhile (fun c => c ≠ ch) = l :=
  List.takeWhile_append_dropWhile _ _

/-! ### Filesystem lemmas -/

theorem FS.read_write_self (fs : FS) (p c : String) :
    (fs.write p c).read p = some c := by
  simp [FS.read, FS.write, lookupFS]

theorem FS.read_write_ne (fs : FS) {p q : String} (c : String) (h : p ≠ q) :
    (fs.write p c).read q = fs.read q := by
  simp [FS.read, FS.write, lookupFS, h]

/-! ### Shape lemmas for the path functions -/

theorem rseg_shape {s : String} {SL M R2 : List Char}
    (hs : s.data.reverse = SL ++ (M ++ R2))
    (hSL : ∀ c ∈ SL, c = '/') (hM0 : M ≠ []) (hM : ∀ c ∈ M, c ≠ '/')
    (hR : R2 = [] ∨ ∃ t, R2 = '/' :: t) :
    trailStripped s = M ++ R2 ∧ rseg s = M := by
  have ht : trailStripped s = M ++ R2 := by
    unfold trailStripped
    rw [hs, dw_eq_all hSL]
    cases M with
    | nil => exact absurd rfl hM0
    | cons m M2 =>
      rw [List.cons_append, dw_eq_stop (hM m (List.mem_cons_self m M2))]
  refine ⟨ht, ?_⟩
  unfold rseg
  rw [ht, tw_ne_all hM]
  rcases hR with h | ⟨t, h⟩
  · simp [h]
  · rw [h, tw_ne_stop, List.append_nil]

theorem extCore_shape {E P : List Char} (hE0 : E ≠ []) (hE : ∀ c ∈ E, c ≠ '.')
    (hP0 : P ≠ []) :
    extCore (E ++ '.' :: P) = '.' :: E.reverse := by
  have hlen : ¬ (E ++ '.' :: P).reverse = ['.', '.'] := by
    intro h
    have h2 := congrArg List.length h
    have hlE : 0 < E.length := List.length_pos.mpr hE0
    have hlP : 0 < P.length := List.length_pos.mpr hP0
    simp [List.length_append] at h2
    omega
  have hdw : (E ++ '.' :: P).dropWhile (fun c => c ≠ '.') = '.' :: P := by
    rw [dw_ne_all hE, dw_ne_stop]
  have htw : (E ++ '.' :: P).takeWhile (fun c => c ≠ '.') = E := by
    rw [tw_ne_all hE, tw_ne_stop, List.append_nil]
  unfold extCore
  rw [if_neg hlen, hdw]
  dsimp only
  rw [if_neg hP0, htw]

theorem extCore_inv {r : List Char} {x : Char} {xs : List Char}
    (h : extCore r = x :: xs) :
    ∃ E P, r = E ++ '.' :: P ∧ x :: xs = '.' :: E.reverse ∧ P ≠ [] ∧
      ∀ c ∈ E, c ≠ '.' := by
  unfold extCore at h
  split at h
  · cases h
  · split at h
    · cases h
    · rename_i a pre heq
      split at h
      · cases h
      · rename_i hpre
        have ha : a = '.' := dw_ne_head heq
        subst ha
        refine ⟨r.takeWhile (fun c => c ≠ '.'), pre, ?_, h.symm, hpre, ?_⟩
        · conv_lhs => rw [← twdw_ne '.' r]
          rw [heq]
        · intro c hc
          exact mem_tw_ne hc

theorem supported_ext_cases {ip : String} (h : isSupportedFile ip = true) :
    getExtension ip = ".doc" ∨ getExtension ip = ".docx" := by
  unfold isSupportedFile SUPPORTED_FORMATS at h
  split_ifs at h with h1 h2
  · exact Or.inl h1
  · exact Or.inr h2
  · simp at h

/-- A supported input path decomposes, read from the end, into a run of
trailing slashes, the reversed extension characters, the last dot, the
rest of the basename and the leading directories; the extension
lower-cases to `.doc` or `.docx`. -/
theorem supported_decomp {ip : String} (h : isSupportedFile ip = true) :
    ∃ SL E P R2 : List Char,
      ip.data.reverse = SL ++ (E ++ '.' :: (P ++ R2)) ∧
      (∀ c ∈ SL, c = '/') ∧ E ≠ [] ∧ (∀ c ∈ E, c ≠ '.' ∧ c ≠ '/') ∧
      P ≠ [] ∧ (∀ c ∈ P, c ≠ '/') ∧
      (R2 = [] ∨ ∃ t, R2 = '/' :: t) ∧
      getExtension ip = String.mk (List.map lowerChar ('.' :: E.reverse)) ∧
      (List.map lowerChar ('.' :: E.reverse) = ".doc".data ∨
        List.map lowerChar ('.' :: E.reverse) = ".docx".data) := by
  have hdata : List.map lowerChar (extCore (rseg ip)) = ".doc".data ∨
      List.map lowerChar (extCore (rseg ip)) = ".docx".data := by
    rcases supported_ext_cases h with h1 | h1
    · exact Or.inl (congrArg String.data h1)
    · exact Or.inr (congrArg String.data h1)
  cases hc : extCore (rseg ip) with
  | nil =>
    rw [hc] at hdata
    rcases hdata with h1 | h1 <;> exact absurd h1 (by decide)
  | cons x xs =>
    obtain ⟨E, P, hr, hxx, hP0, hEdot⟩ := extCore_inv hc
    rw [hc, hxx] at hdata
    have hE0 : E ≠ [] := by
      intro he
      rw [he] at hdata
      rcases hdata with h1 | h1 <;> exact absurd h1 (by decide)
    have hslash : ∀ c ∈ rseg ip, c ≠ '/' := by
      intro c hc2
      exact mem_tw_ne (show c ∈ (trailStripped ip).takeWhile (fun c => c ≠ '/') from hc2)
    have e1 : ip.data.reverse.takeWhile (fun c => c = '/') ++ trailStripped ip =
        ip.data.reverse := by
      unfold trailStripped
      exact twdw_eq '/' ip.data.reverse
    have e2 : rseg ip ++ (trailStripped ip).dropWhile (fun c => c ≠ '/') =
        trailStripped ip := by
      unfold rseg
      exact twdw_ne '/' (trailStripped ip)
    have hge : getExtension ip = String.mk (List.map lowerChar ('.' :: E.reverse)) := by
      have hce : extCore (rseg ip) = '.' :: E.reverse := hc.trans hxx
      unfold getExtension extname toLowerStr
      dsimp only
      rw [hce]
    refine ⟨ip.data.reverse.takeWhile (fun c => c = '/'), E, P,
      (trailStripped ip).dropWhile (fun c => c ≠ '/'), ?_, ?_, hE0, ?_, hP0, ?_, ?_,
      hge, hdata⟩
    · conv_lhs => rw [← e1]
      conv_lhs => rw [← e2]
      rw [hr]
      simp [List.append_assoc]
    · intro c hc2
      exact mem_tw_eq hc2
    · intro c hc2
      refine ⟨hEdot c hc2, hslash c ?_⟩
      rw [hr]
      exact List.mem_append_left _ hc2
    · intro c hc2
      refine hslash c ?_
      rw [hr]
      exact List.mem_append_right _ (List.mem_cons_of_mem _ hc2)
    · cases hR2 : (trailStripped ip).dropWhile (fun c => c ≠ '/') with
      | nil => exact Or.inl rfl
      | cons a t =>
        have h1 : a = '/' := dw_ne_head hR2
        exact Or.inr ⟨t, by rw [h1]⟩

theorem replaceExt_shape {s : String} (fmt : String) {A B : List Char}
    (hs : s.data.reverse = A ++ '.' :: B) (hA0 : A ≠ []) (hA : ∀ c ∈ A, c ≠ '.') :
    (replaceExt s fmt).data = B.reverse ++ fmt.data := by
  have hdw : s.data.reverse.dropWhile (fun c => c ≠ '.') = '.' :: B := by
    rw [hs, dw_ne_all hA, dw_ne_stop]
  have htw : s.data.reverse.takeWhile (fun c => c ≠ '.') = A := by
    rw [hs, tw_ne_all hA, tw_ne_stop, List.append_nil]
  unfold replaceExt
  rw [hdw]
  dsimp only
  rw [htw, if_neg hA0]
  rfl

/-! ### Computation lemmas for the conversion pipeline -/

theorem convertDocument_readErr {conv : Conv} {fs : FS} {ip : String} (f : String)
    (hread : fs.read ip = none) :
    convertDocument conv fs ip f =
      ([Event.read ip], fs, Except.error ConvErr.fsReadError) := by
  simp only [convertDocument, hread]

theorem convertDocument_convErr {conv : Conv} {fs : FS} {ip f buf m : String}
    (hread : fs.read ip = some buf) (hconv : conv buf f = Except.error m) :
    convertDocument conv fs ip f =
      ([Event.read ip, Event.convCall f], fs,
        Except.error (ConvErr.converterError m)) := by
  simp only [convertDocument, hread, hconv]

theorem convertDocument_ok {conv : Conv} {fs : FS} {ip f buf out : String}
    (hread : fs.read ip = some buf) (hconv : conv buf f = Except.ok out) :
    convertDocument conv fs ip f =
      ([Event.read ip, Event.convCall f, Event.write (replaceExt ip f)],
        fs.write (replaceExt ip f) out, Except.ok (replaceExt ip f)) := by
  simp only [convertDocument, hread, hconv]

theorem convertJob_eq_multiple (conv : Conv) (fs : FS) (ip spec : String) :
    convertJob conv fs ip spec =
      convertDocumentMultiple conv fs ip (specFormats spec) := by
  unfold convertJob specFormats
  by_cases hp : hasPlus spec = true
  · simp only [hp, if_true]
  · simp only [hp, if_false, Bool.false_eq_true]
    rcases hcd : convertDocument conv fs ip spec with ⟨ev, fs1, r⟩
    cases r with
    | error e => simp [convertDocumentMultiple, hcd]
    | ok o => simp [convertDocumentMultiple, hcd]

theorem splitOnChar_ne_nil (sep : Char) (l : List Char) : splitOnChar sep l ≠ [] := by
  cases l with
  | nil => simp [splitOnChar]
  | cons a t =>
    simp only [splitOnChar]
    split <;> simp

theorem specFormats_ne_nil (spec : String) : specFormats spec ≠ [] := by
  unfold specFormats
  split
  · unfold splitFormats
    simp [splitOnChar_ne_nil]
  · simp

/-- The first side effect of `convertDocument` is always the read of the
input file. -/
theorem convertDocument_head (conv : Conv) (fs : FS) (ip f : String) :
    ∃ t, (convertDocument conv fs ip f).1 = Event.read ip :: t := by
  cases hread : fs.read ip with
  | none => exact ⟨[], by rw [convertDocument_readErr f hread]⟩
  | some buf =>
    cases hconv : conv buf f with
    | error m => exact ⟨_, by rw [convertDocument_convErr hread hconv]⟩
    | ok out => exact ⟨_, by rw [convertDocument_ok hread hconv]⟩

/-- `convertDocument` never produces the `UnsupportedFormat` failure. -/
theorem convertDocument_no_unsupported (conv : Conv) (fs : FS) (ip f : String) :
    (convertDocument conv fs ip f).2.2 ≠ Except.error ConvErr.unsupportedFormat := by
  cases hread : fs.read ip with
  | none => rw [convertDocument_readErr f hread]; simp
  | some buf =>
    cases hconv : conv buf f with
    | error m => rw [convertDocument_convErr hread hconv]; simp
    | ok out => rw [convertDocument_ok hread hconv]; simp

/-- No run of `convertDocumentMultiple` produces the `UnsupportedFormat`
failure. -/
theorem cdm_no_unsupported (conv : Conv) (ip : String) :
    ∀ (formats : List String) (fs : FS),
      (convertDocumentMultiple conv fs ip formats).2.2 ≠
        Except.error ConvErr.unsupportedFormat := by
  intro formats
  induction formats with
  | nil => intro fs h; simp [convertDocumentMultiple] at h
  | cons f rest ih =>
    intro fs h
    rcases hcd : convertDocument conv fs ip f with ⟨ev, fs1, r⟩
    cases r with
    | error e =>
      have hval : (convertDocumentMultiple conv fs ip (f :: rest)).2.2 =
          Except.error e := by
        rw [convertDocumentMultiple, hcd]
      rw [hval] at h
      injection h with he
      subst he
      have h2 := convertDocument_no_unsupported conv fs ip f
      rw [hcd] at h2
      exact h2 rfl
    | ok o =>
      rcases hrec : convertDocumentMultiple conv fs1 ip rest with ⟨ev2, fs2, r2⟩
      cases r2 with
      | error e =>
        have hval : (convertDocumentMultiple conv fs ip (f :: rest)).2.2 =
            Except.error e := by
          rw [convertDocumentMultiple, hcd]
          dsimp only
          rw [hrec]
        rw [hval] at h
        injection h with he
        subst he
        have h2 := ih fs1
        rw [hrec] at h2
        exact h2 rfl
      | ok os =>
        have hval : (convertDocumentMultiple conv fs ip (f :: rest)).2.2 =
            Except.ok (o :: os) := by
          rw [convertDocumentMultiple, hcd]
          dsimp only
          rw [hrec]
        rw [hval] at h
        cases h

/-- When every format of the batch converts successfully and no derived
output path collides with the input path, `convertDocumentMultiple` runs
every step, in order, and accumulates trace, writes and output paths. -/
theorem cdm_success (conv : Conv) (ip buf : String) (out : String → String) :
    ∀ (formats : List String) (fs : FS),
      fs.read ip = some buf →
      (∀ f ∈ formats, conv buf f = Except.ok (out f)) →
      (∀ f ∈ formats, replaceExt ip f ≠ ip) →
      convertDocumentMultiple conv fs ip formats =
        ((formats.map (fun f => [Event.read ip, Event.convCall f,
            Event.write (replaceExt ip f)])).flatten,
          formats.foldl (fun a f => a.write (replaceExt ip f) (out f)) fs,
          Except.ok (formats.map (fun f => replaceExt ip f))) := by
  intro formats
  induction formats with
  | nil => intro fs _ _ _; simp [convertDocumentMultiple]
  | cons f rest ih =>
    intro fs hread hconv hne
    have h1 := convertDocument_ok hread (hconv f (List.mem_cons_self f rest))
    have hread2 : (fs.write (replaceExt ip f) (out f)).read ip = some buf := by
      rw [FS.read_write_ne _ _ (hne f (List.mem_cons_self f rest))]
      exact hread
    have h2 := ih (fs.write (replaceExt ip f) (out f)) hread2
      (fun g hg => hconv g (List.mem_cons_of_mem f hg))
      (fun g hg => hne g (List.mem_cons_of_mem f hg))
    rw [convertDocumentMultiple, h1]
    dsimp only
    rw [h2]
    simp

/-- The trace of a run only changes the filesystem at derived output
paths: reading the input path afterwards gives what it gave before,
provided no output path collides with it. -/
theorem cdm_read_preserved (conv : Conv) (ip : String) :
    ∀ (formats : List String) (fs : FS),
      (∀ f ∈ formats, replaceExt ip f ≠ ip) →
      ((convertDocumentMultiple conv fs ip formats).2.1).read ip = fs.read ip := by
  intro formats
  induction formats with
  | nil => intro fs _; simp [convertDocumentMultiple]
  | cons f rest ih =>
    intro fs hne
    have hfs1 : ((convertDocument conv fs ip f).2.1).read ip = fs.read ip := by
      cases hread : fs.read ip with
      | none => rw [convertDocument_readErr f hread, hread]
      | some buf =>
        cases hconv : conv buf f with
        | error m => rw [convertDocument_convErr hread hconv, hread]
        | ok out =>
          rw [convertDocument_ok hread hconv]
          dsimp only
          rw [FS.read_write_ne _ _ (hne f (List.mem_cons_self f rest)), hread]
    rcases hcd : convertDocument conv fs ip f with ⟨ev, fs1, r⟩
    rw [hcd] at hfs1
    cases r with
    | error e =>
      rw [convertDocumentMultiple, hcd]
      exact hfs1
    | ok o =>
      rcases hrec : convertDocumentMultiple conv fs1 ip rest with ⟨ev2, fs2, r2⟩
      have := ih fs1 (fun g hg => hne g (List.mem_cons_of_mem f hg))
      rw [hrec] at this
      rw [convertDocumentMultiple, hcd]
      dsimp only
      rw [hrec]
      cases r2 with
      | error e => exact this.trans hfs1
      | ok os => exact this.trans hfs1

/-- `convertDocument` is determined by the contents of the input path:
two filesystems that agree there give the same trace and the same result,
and keep agreeing there. -/
theorem convertDocument_determined (conv : Conv) (ip f : String) (fs fs2 : FS)
    (h : fs.read ip = fs2.read ip) :
    (convertDocument conv fs ip f).1 = (convertDocument conv fs2 ip f).1 ∧
    (convertDocument conv fs ip f).2.2 = (convertDocument conv fs2 ip f).2.2 ∧
    ((convertDocument conv fs ip f).2.1).read ip =
      ((convertDocument conv fs2 ip f).2.1).read ip := by
  cases hread : fs.read ip with
  | none =>
    rw [convertDocument_readErr f hread, convertDocument_readErr f (h ▸ hread)]
    exact ⟨rfl, rfl, by rw [← h]⟩
  | some buf =>
    have hread2 : fs2.read ip = some buf := h ▸ hread
    cases hconv : conv buf f with
    | error m =>
      rw [convertDocument_convErr hread hconv, convertDocument_convErr hread2 hconv]
      exact ⟨rfl, rfl, h⟩
    | ok out =>
      rw [convertDocument_ok hread hconv, convertDocument_ok hread2 hconv]
      refine ⟨rfl, rfl, ?_⟩
      dsimp only
      by_cases ho : replaceExt ip f = ip
      · rw [ho, FS.read_write_self, FS.read_write_self]
      · rw [FS.read_write_ne _ _ ho, FS.read_write_ne _ _ ho]
        exact h

/-- A whole batch is determined by the contents of the input path. -/
theorem cdm_determined (conv : Conv) (ip : String) :
    ∀ (formats : List String) (fs fs2 : FS),
      fs.read ip = fs2.read ip →
      (convertDocumentMultiple conv fs ip formats).1 =
        (convertDocumentMultiple conv fs2 ip formats).1 ∧
      (convertDocumentMultiple conv fs ip formats).2.2 =
        (convertDocumentMultiple conv fs2 ip formats).2.2 ∧
      ((convertDocumentMultiple conv fs ip formats).2.1).read ip =
        ((convertDocumentMultiple conv fs2 ip formats).2.1).read ip := by
  intro formats
  induction formats with
  | nil => intro fs fs2 h; simpa [convertDocumentMultiple] using h
  | cons f rest ih =>
    intro fs fs2 h
    obtain ⟨htr, hres, hfs⟩ := convertDocument_determined conv ip f fs fs2 h
    rcases hcd : convertDocument conv fs ip f with ⟨ev, fs1, r⟩
    rcases hcd2 : convertDocument conv fs2 ip f with ⟨evb, fs1b, rb⟩
    rw [hcd, hcd2] at htr hres hfs
    dsimp only at htr hres hfs
    subst htr
    cases r with
    | error e =>
      cases rb with
      | error eb =>
        rw [convertDocumentMultiple, hcd, convertDocumentMultiple, hcd2]
        exact ⟨rfl, by rw [hres], hfs⟩
      | ok ob => cases hres
    | ok o =>
      cases rb with
      | error eb => cases hres
      | ok ob =>
        have hoo : o = ob := by
          injection hres with hres2
        subst hoo
        obtain ⟨htr2, hres2, hfs2⟩ := ih fs1 fs1b hfs
        rcases hrec : convertDocumentMultiple conv fs1 ip rest with ⟨ev2, fs2c, r2⟩
        rcases hrec2 : convertDocumentMultiple conv fs1b ip rest with ⟨ev2b, fs2d, r2b⟩
        rw [hrec, hrec2] at htr2 hres2 hfs2
        have htr3 : ev2 = ev2b := htr2
        have hres3 : r2 = r2b := hres2
        have hfs3 : fs2c.read ip = fs2d.read ip := hfs2
        subst htr3
        rw [convertDocumentMultiple, hcd, convertDocumentMultiple, hcd2]
        dsimp only
        rw [hrec, hrec2]
        cases r2 with
        | error e2 =>
          cases r2b with
          | error e2b => exact ⟨rfl, hres3, hfs3⟩
          | ok os2 => cases hres3
        | ok os =>
          cases r2b with
          | error e2b => cases hres3
          | ok os2 =>
            injection hres3 with hos
            subst hos
            exact ⟨rfl, rfl, hfs3⟩

/-! ### Output-path lemmas -/

theorem stem_block (W P : List Char) :
    ((W ++ '.' :: P).reverse).take ((W ++ '.' :: P).length - (W.length + 1)) =
      P.reverse := by
  have hrev : (W ++ '.' :: P).reverse = P.reverse ++ ('.' :: W.reverse) := by
    simp [List.reverse_append, List.append_assoc]
  have hlen : (W ++ '.' :: P).length - (W.length + 1) = P.reverse.length := by
    simp [List.length_append]
    omega
  rw [hrev, hlen]
  exact List.take_left _ _

/-- When the derived output path would equal the input path, the format
string must spell the input's own trailing extension; the catalog formats
never do, which the two callers below discharge. -/
theorem replaceExt_ne_self {ip : String} {SL E P R2 : List Char} (f : String)
    (hip : ip.data.reverse = SL ++ (E ++ '.' :: (P ++ R2)))
    (hSL : ∀ c ∈ SL, c = '/') (hE0 : E ≠ []) (hE : ∀ c ∈ E, c ≠ '.' ∧ c ≠ '/')
    (hfne : List.map lowerChar f.data ≠ List.map lowerChar ('.' :: E.reverse))
    (hfs : ¬ '/' ∈ f.data) :
    replaceExt ip f ≠ ip := by
  intro heq
  have hs2 : ip.data.reverse = (SL ++ E) ++ '.' :: (P ++ R2) := by
    rw [hip]; simp [List.append_assoc]
  have hA0 : SL ++ E ≠ [] := fun hh => hE0 (List.append_eq_nil.mp hh).2
  have hA : ∀ c ∈ SL ++ E, c ≠ '.' := by
    intro c hc
    rcases List.mem_append.mp hc with h1 | h1
    · have := hSL c h1; subst this; decide
    · exact (hE c h1).1
  have hout := @replaceExt_shape ip f (SL ++ E) (P ++ R2) hs2 hA0 hA
  rw [heq] at hout
  have hipdata : ip.data = (P ++ R2).reverse ++ ('.' :: (E.reverse ++ SL.reverse)) := by
    have h2 := congrArg List.reverse hip
    rw [List.reverse_reverse] at h2
    rw [h2]
    simp [List.reverse_append, List.append_assoc]
  have hfd : f.data = '.' :: (E.reverse ++ SL.reverse) :=
    List.append_cancel_left (hout.symm.trans hipdata)
  cases hsl : SL with
  | nil =>
    rw [hsl] at hfd
    simp only [List.reverse_nil, List.append_nil] at hfd
    exact hfne (by rw [hfd])
  | cons s SL2 =>
    have hs : s = '/' := hSL s (by rw [hsl]; exact List.mem_cons_self s SL2)
    have hmem : '/' ∈ f.data := by
      rw [hfd]
      refine List.mem_cons_of_mem _ (List.mem_append_right _ ?_)
      rw [List.mem_reverse, hsl, ← hs]
      exact List.mem_cons_self s SL2
    exact hfs hmem

/-- No format the catalog allows for a supported input derives an output
path equal to the input path. -/
theorem catalog_no_self_overwrite {ip spec : String}
    (hsupp : isSupportedFile ip = true) (hspec : spec ∈ getOutputFormats ip) :
    ∀ f ∈ specFormats spec, replaceExt ip f ≠ ip := by
  obtain ⟨SL, E, P, R2, hip, hSL, hE0, hE, hP0, hP, hR2, hge, hlow⟩ :=
    supported_decomp hsupp
  rcases supported_ext_cases hsupp with hext | hext
  · have hmap : List.map lowerChar ('.' :: E.reverse) = ".doc".data :=
      congrArg String.data (hge.symm.trans hext)
    have hfor : getOutputFormats ip = [".pdf", ".docx", ".pdf+.docx"] := by
      unfold getOutputFormats
      rw [hext]
      decide
    rw [hfor] at hspec
    simp only [List.mem_cons, List.mem_singleton, List.not_mem_nil, or_false] at hspec
    intro f hf
    rcases hspec with h | h | h <;> subst h
    · rw [show specFormats (".pdf") = [".pdf"] by decide] at hf
      simp only [List.mem_singleton] at hf
      subst hf
      exact replaceExt_ne_self (".pdf") hip hSL hE0 hE (by rw [hmap]; decide) (by decide)
    · rw [show specFormats (".docx") = [".docx"] by decide] at hf
      simp only [List.mem_singleton] at hf
      subst hf
      exact replaceExt_ne_self (".docx") hip hSL hE0 hE (by rw [hmap]; decide) (by decide)
    · rw [show specFormats (".pdf+.docx") = [".pdf", ".docx"] by decide] at hf
      simp only [List.mem_cons, List.mem_singleton, List.not_mem_nil, or_false] at hf
      rcases hf with h | h <;> subst h
      · exact replaceExt_ne_self (".pdf") hip hSL hE0 hE (by rw [hmap]; decide) (by decide)
      · exact replaceExt_ne_self (".docx") hip hSL hE0 hE (by rw [hmap]; decide) (by decide)
  · have hmap : List.map lowerChar ('.' :: E.reverse) = ".docx".data :=
      congrArg String.data (hge.symm.trans hext)
    have hfor : getOutputFormats ip = [".pdf", ".doc", ".pdf+.doc"] := by
      unfold getOutputFormats
      rw [hext]
      decide
    rw [hfor] at hspec
    simp only [List.mem_cons, List.mem_singleton, List.not_mem_nil, or_false] at hspec
    intro f hf
    rcases hspec with h | h | h <;> subst h
    · rw [show specFormats (".pdf") = [".pdf"] by decide] at hf
      simp only [List.mem_singleton] at hf
      subst hf
      exact replaceExt_ne_self (".pdf") hip hSL hE0 hE (by rw [hmap]; decide) (by decide)
    · rw [show specFormats (".doc") = [".doc"] by decide] at hf
      simp only [List.mem_singleton] at hf
      subst hf
      exact replaceExt_ne_self (".doc") hip hSL hE0 hE (by rw [hmap]; decide) (by decide)
    · rw [show specFormats (".pdf+.doc") = [".pdf", ".doc"] by decide] at hf
      simp only [List.mem_cons, List.mem_singleton, List.not_mem_nil, or_false] at hf
      rcases hf with h | h <;> subst h
      · exact replaceExt_ne_self (".pdf") hip hSL hE0 hE (by rw [hmap]; decide) (by decide)
      · exact replaceExt_ne_self (".doc") hip hSL hE0 hE (by rw [hmap]; decide) (by decide)

/-- Replacing the extension of a supported input by a simple lower-case
format yields a path whose extension is that format and whose stem is the
input's stem. -/
theorem replaceExt_ext_stem {ip spec : String} {SL E P R2 L : List Char}
    (hip : ip.data.reverse = SL ++ (E ++ '.' :: (P ++ R2)))
    (hSL : ∀ c ∈ SL, c = '/') (hE0 : E ≠ []) (hE : ∀ c ∈ E, c ≠ '.' ∧ c ≠ '/')
    (hP0 : P ≠ []) (hP : ∀ c ∈ P, c ≠ '/') (hR2 : R2 = [] ∨ ∃ t, R2 = '/' :: t)
    (hL : spec.data = '.' :: L) (hL0 : L ≠ []) (hLc : ∀ c ∈ L, c ≠ '.' ∧ c ≠ '/')
    (hLlow : List.map lowerChar spec.data = spec.data) :
    getExtension (replaceExt ip spec) = spec ∧
    stemOf (replaceExt ip spec) = stemOf ip := by
  have hs2 : ip.data.reverse = (SL ++ E) ++ '.' :: (P ++ R2) := by
    rw [hip]; simp [List.append_assoc]
  have hA0 : SL ++ E ≠ [] := fun hh => hE0 (List.append_eq_nil.mp hh).2
  have hA : ∀ c ∈ SL ++ E, c ≠ '.' := by
    intro c hc
    rcases List.mem_append.mp hc with h1 | h1
    · have := hSL c h1; subst this; decide
    · exact (hE c h1).1
  have hod := @replaceExt_shape ip spec (SL ++ E) (P ++ R2) hs2 hA0 hA
  have hrev : (replaceExt ip spec).data.reverse = [] ++ ((L.reverse ++ '.' :: P) ++ R2) := by
    rw [hod, hL]
    simp [List.reverse_append, List.append_assoc]
  have hM0 : L.reverse ++ '.' :: P ≠ [] := by simp
  have hM : ∀ c ∈ L.reverse ++ '.' :: P, c ≠ '/' := by
    intro c hc
    rcases List.mem_append.mp hc with h1 | h1
    · exact (hLc c (List.mem_reverse.mp h1)).2
    · rcases List.mem_cons.mp h1 with h2 | h2
      · subst h2; decide
      · exact hP c h2
  obtain ⟨hto, hro⟩ := @rseg_shape (replaceExt ip spec) [] (L.reverse ++ '.' :: P) R2
    hrev (by simp) hM0 hM hR2
  have hLrev0 : L.reverse ≠ [] := fun hh => hL0 (by simpa using hh)
  have heco : extCore (rseg (replaceExt ip spec)) = '.' :: L := by
    rw [hro, extCore_shape hLrev0 (fun c hc => (hLc c (List.mem_reverse.mp hc)).1) hP0]
    rw [List.reverse_reverse]
  have hge_o : getExtension (replaceExt ip spec) = spec := by
    unfold getExtension extname toLowerStr
    dsimp only
    rw [heco, ← hL, hLlow]
  have hip2 : ip.data.reverse = SL ++ ((E ++ '.' :: P) ++ R2) := by
    rw [hip]; simp [List.append_assoc]
  have hMi : ∀ c ∈ E ++ '.' :: P, c ≠ '/' := by
    intro c hc
    rcases List.mem_append.mp hc with h1 | h1
    · exact (hE c h1).2
    · rcases List.mem_cons.mp h1 with h2 | h2
      · subst h2; decide
      · exact hP c h2
  obtain ⟨hti, hri⟩ := @rseg_shape ip SL (E ++ '.' :: P) R2 hip2 hSL (by simp) hMi hR2
  have heci : extCore (rseg ip) = '.' :: E.reverse := by
    rw [hri]
    exact extCore_shape hE0 (fun c hc => (hE c hc).1) hP0
  have hstem_o : stemOf (replaceExt ip spec) = String.mk P.reverse := by
    unfold stemOf
    rw [heco, hro]
    rw [show ('.' :: L).length = (L.reverse).length + 1 by simp]
    exact congrArg String.mk (stem_block L.reverse P)
  have hstem_i : stemOf ip = String.mk P.reverse := by
    unfold stemOf
    rw [heci, hri]
    rw [show ('.' :: E.reverse).length = E.length + 1 by simp]
    exact congrArg String.mk (stem_block E P)
  exact ⟨hge_o, hstem_o.trans hstem_i.symm⟩

theorem blocks_filterMap (ip : String) (g : String → String) :
    ∀ formats : List String,
      ((formats.map (fun f => [Event.read ip, Event.convCall f,
          Event.write (g f)])).flatten).filterMap convCallFmt = formats := by
  intro formats
  induction formats with
  | nil => simp
  | cons f rest ih =>
    simp [List.filterMap_append, convCallFmt, ih]

/-! ### Claim C1 -/

/-- C1, counterexample: a job whose input extension `.txt` is unsupported
does not fail with `UnsupportedFormat` and does not stay side-effect
free; the conversion branch happily reads the file, calls the converter
and writes `/tmp/a.pdf`. -/
theorem c1_counterexample :
    isSupportedFile ("/tmp/a.txt") = false ∧
    (convertJob convOk fsTxt ("/tmp/a.txt") (".pdf")).1 ≠ [] ∧
    (convertJob convOk fsTxt ("/tmp/a.txt") (".pdf")).2.2 =
      Except.ok [("/tmp/a.pdf")] := by
  refine ⟨by decide, by decide, by decide⟩

/-- C1 (amended): the conversion branch of `handleConvert` performs no
legality validation at all: for every job, legal or not, it never fails
with `UnsupportedFormat`, and its very first side effect is always the
read of the input file. -/
theorem c1_amended_no_validation (conv : Conv) (fs : FS) (ip spec : String) :
    (convertJob conv fs ip spec).1.head? = some (Event.read ip) ∧
    (convertJob conv fs ip spec).2.2 ≠ Except.error ConvErr.unsupportedFormat := by
  constructor
  · rw [convertJob_eq_multiple]
    cases hsf : specFormats spec with
    | nil => exact absurd hsf (specFormats_ne_nil spec)
    | cons f rest =>
      obtain ⟨t, ht⟩ := convertDocument_head conv fs ip f
      rcases hcd : convertDocument conv fs ip f with ⟨ev, fs1, r⟩
      rw [hcd] at ht
      have hev : ev = Event.read ip :: t := ht
      subst hev
      cases r with
      | error e =>
        rw [convertDocumentMultiple, hcd]
        rfl
      | ok o =>
        rcases hrec : convertDocumentMultiple conv fs1 ip rest with ⟨ev2, fs2, r2⟩
        rw [convertDocumentMultiple, hcd]
        dsimp only
        rw [hrec]
        cases r2 <;> rfl
  · rw [convertJob_eq_multiple]
    exact cdm_no_unsupported conv ip (specFormats spec) fs

/-! ### Claim C2 -/

/-- C2, counterexample: on `r.docx` with specifier `.pdf+.doc` and a
converter that fails on `.doc`, the conversion surfaces only the bare
converter error; `/d/r.pdf` was produced and sits on disk, yet the
surfaced failure (the `error.message` shown in the toast) does not
mention it. -/
theorem c2_counterexample :
    (convertJob convPdfOnly fsDocx ("/d/r.docx") (".pdf+.doc")).2.2 =
      Except.error (ConvErr.converterError ("boom")) ∧
    ((convertJob convPdfOnly fsDocx ("/d/r.docx") (".pdf+.doc")).2.1).read
      ("/d/r.pdf") = some ("P") ∧
    ¬ ("/d/r.pdf").data <:+: (errMessage (ConvErr.converterError ("boom"))).data := by
  refine ⟨by decide, by decide, by decide⟩

/-- C2 (amended): for a composite `[f1, f2]` whose converter call fails on
`f2` after `f1` succeeded, the orchestration stops immediately after the
failing call (no further write), the output of `f1` stays written on
disk, and the surfaced failure carries only the converter error message,
with no record of the already-produced path. -/
theorem c2_amended_stops_and_surfaces_error (conv : Conv) (fs : FS)
    (ip spec f1 f2 buf out1 msg : String)
    (hplus : hasPlus spec = true)
    (hsplit : splitFormats spec = [f1, f2])
    (hread : fs.read ip = some buf)
    (h1 : conv buf f1 = Except.ok out1)
    (hne : replaceExt ip f1 ≠ ip)
    (h2 : conv buf f2 = Except.error msg) :
    convertJob conv fs ip spec =
      ([Event.read ip, Event.convCall f1, Event.write (replaceExt ip f1),
        Event.read ip, Event.convCall f2],
        fs.write (replaceExt ip f1) out1,
        Except.error (ConvErr.converterError msg)) ∧
    (fs.write (replaceExt ip f1) out1).read (replaceExt ip f1) = some out1 ∧
    errMessage (ConvErr.converterError msg) = msg := by
  refine ⟨?_, FS.read_write_self fs _ out1, rfl⟩
  rw [convertJob_eq_multiple]
  have hsf : specFormats spec = [f1, f2] := by
    unfold specFormats
    rw [hplus, if_pos rfl, hsplit]
  rw [hsf]
  have hread2 : (fs.write (replaceExt ip f1) out1).read ip = some buf := by
    rw [FS.read_write_ne _ _ hne]
    exact hread
  rw [convertDocumentMultiple, convertDocument_ok hread h1]
  dsimp only
  rw [convertDocumentMultiple, convertDocument_convErr hread2 h2]
  rfl

/-- C2, witness: the amended statement at the concrete failing batch. -/
theorem c2_witness :
    (convertJob convPdfOnly fsDocx ("/d/r.docx") (".pdf+.doc")).2.2 =
      Except.error (ConvErr.converterError ("boom")) := by
  have h := c2_amended_stops_and_surfaces_error convPdfOnly fsDocx ("/d/r.docx")
    (".pdf+.doc") (".pdf") (".doc") ("X") ("P") ("boom")
    (by decide) (by decide) (by decide) (by decide) (by decide) (by decide)
  rw [h.1]

/-! ### Claim C3 -/

/-- C3, counterexample: with a clipboard oracle that throws and a reveal
oracle that would succeed, the publishing step after a successful
conversion performs no reveal and reports the run as a failure, so the
clipboard and reveal actions are not independent and a clipboard error
does turn a successful conversion into a reported failure. -/
theorem c3_counterexample :
    (afterConvert clipFail revealOk [("/d/a.pdf")]).revealed = false ∧
    (afterConvert clipFail revealOk [("/d/a.pdf")]).toastSuccess = false ∧
    clipFail [("/d/a.pdf")] = Except.error ("clipboard error") := by
  exact ⟨rfl, rfl, rfl⟩

/-- C3 (amended): clipboard and reveal run sequentially inside one try
block. A clipboard failure prevents the HUD and the reveal and surfaces
the clipboard error as the failure toast; a reveal failure happens after
the clipboard copy, which it cannot undo, and also surfaces as a failure
toast; only when both succeed is the success toast kept and the directory
revealed. The files on disk are untouched by this step in every case. -/
theorem c3_amended_sequential_publish (clip : List String → Except String Unit)
    (reveal : String → Except String Unit) (outputPaths : List String) :
    (∀ m, clip outputPaths = Except.error m →
      afterConvert clip reveal outputPaths = ⟨false, m, false, false, false⟩) ∧
    (∀ m, clip outputPaths = Except.ok () →
      reveal (dirname (outputPaths.headD "")) = Except.error m →
      (afterConvert clip reveal outputPaths).clipboardCopied = true ∧
      (afterConvert clip reveal outputPaths).toastSuccess = false) ∧
    (clip outputPaths = Except.ok () →
      reveal (dirname (outputPaths.headD "")) = Except.ok () →
      (afterConvert clip reveal outputPaths).toastSuccess = true ∧
      (afterConvert clip reveal outputPaths).revealed = true) := by
  refine ⟨?_, ?_, ?_⟩
  · intro m hm
    unfold afterConvert
    rw [hm]
  · intro m hc hr
    unfold afterConvert
    rw [hc, hr]
    exact ⟨rfl, rfl⟩
  · intro hc hr
    unfold afterConvert
    rw [hc, hr]
    exact ⟨rfl, rfl⟩

/-- C3, witness: a reveal failure after a successful clipboard copy keeps
the copy but downgrades the toast. -/
theorem c3_witness :
    (afterConvert clipOk revealFail [("/d/a.pdf")]).clipboardCopied = true ∧
    (afterConvert clipOk revealFail [("/d/a.pdf")]).toastSuccess = false :=
  (c3_amended_sequential_publish clipOk revealFail [("/d/a.pdf")]).2.1
    ("open failed") rfl rfl

/-! ### Claim C6 -/

/-- C6: for every extension in the catalog the legal-output list is
non-empty, its first element is the constant simple specifier `.pdf`
(the model is a pure function, so the default is the same on every call),
and every element of every composite specifier in the list is itself a
member of the list; an extension outside the catalog yields the empty
list. -/
theorem c6_catalog_invariants (e : String) :
    (∀ fmts, SUPPORTED_FORMATS e = some fmts →
      fmts ≠ [] ∧ fmts.head? = some (".pdf") ∧ hasPlus (".pdf") = false ∧
      ∀ f ∈ fmts, ∀ g ∈ splitFormats f, g ∈ fmts) ∧
    (SUPPORTED_FORMATS e = none → (SUPPORTED_FORMATS e).getD [] = []) := by
  constructor
  · intro fmts hf
    unfold SUPPORTED_FORMATS at hf
    split_ifs at hf with h1 h2
    · injection hf with hf2
      subst hf2
      exact ⟨by decide, by decide, by decide, by decide⟩
    · injection hf with hf2
      subst hf2
      exact ⟨by decide, by decide, by decide, by decide⟩
  · intro h
    rw [h]
    rfl

/-- C6, witness: the catalog entry for `.doc`, with its stable `.pdf`
default. -/
theorem c6_witness :
    [(".pdf"), (".docx"), (".pdf+.docx")].head? = some (".pdf") := by
  have h := (c6_catalog_invariants (".doc")).1 [(".pdf"), (".docx"), (".pdf+.docx")]
    (by decide)
  exact h.2.1

/-! ### Claim C7 -/

/-- C7: the availability probe is total in the embedding (it returns a
boolean for every probe outcome), and any probing error collapses to the
result `false`, never to a thrown exception. -/
theorem c7_probe_total (probeExec : Except String Unit) :
    (isLibreOfficeInstalled probeExec = true ∨
      isLibreOfficeInstalled probeExec = false) ∧
    (∀ m, probeExec = Except.error m → isLibreOfficeInstalled probeExec = false) := by
  constructor
  · cases probeExec with
    | ok u => exact Or.inl rfl
    | error m => exact Or.inr rfl
  · intro m hm
    rw [hm]
    rfl

/-- C7, witness: a concrete probing error yields `false`. -/
theorem c7_witness :
    isLibreOfficeInstalled (Except.error ("probe failed")) = false :=
  (c7_probe_total (Except.error ("probe failed"))).2 ("probe failed") rfl

/-! ### Claim C4 -/

/-- C4: for a supported input and a simple catalog specifier, the
conversion returns exactly one output path, derived by replacing the
single trailing extension; the output's lower-cased extension equals the
target, its stem equals the input's stem, and the write silently
overwrites whatever was at that path. -/
theorem c4_simple_specifier_output (conv : Conv) (fs : FS) (ip spec buf out : String)
    (hsupp : isSupportedFile ip = true)
    (hspec : spec ∈ getOutputFormats ip)
    (hsimple : hasPlus spec = false)
    (hread : fs.read ip = some buf)
    (hconv : conv buf spec = Except.ok out) :
    convertJob conv fs ip spec =
      ([Event.read ip, Event.convCall spec, Event.write (replaceExt ip spec)],
        fs.write (replaceExt ip spec) out, Except.ok [replaceExt ip spec]) ∧
    getExtension (replaceExt ip spec) = spec ∧
    stemOf (replaceExt ip spec) = stemOf ip ∧
    (fs.write (replaceExt ip spec) out).read (replaceExt ip spec) = some out := by
  have hrun : convertJob conv fs ip spec =
      ([Event.read ip, Event.convCall spec, Event.write (replaceExt ip spec)],
        fs.write (replaceExt ip spec) out, Except.ok [replaceExt ip spec]) := by
    unfold convertJob
    rw [hsimple, if_neg (by simp), convertDocument_ok hread hconv]
  obtain ⟨SL, E, P, R2, hip, hSL, hE0, hE, hP0, hP, hR2, hge, hlow⟩ :=
    supported_decomp hsupp
  have hpair : getExtension (replaceExt ip spec) = spec ∧
      stemOf (replaceExt ip spec) = stemOf ip := by
    rcases supported_ext_cases hsupp with hext | hext
    · have hfor : getOutputFormats ip = [(".pdf"), (".docx"), (".pdf+.docx")] := by
        unfold getOutputFormats
        rw [hext]
        decide
      rw [hfor] at hspec
      simp only [List.mem_cons, List.not_mem_nil, or_false] at hspec
      rcases hspec with h | h | h <;> subst h
      · exact @replaceExt_ext_stem ip (".pdf") SL E P R2 (['p', 'd', 'f']) hip hSL hE0
          hE hP0 hP hR2 (by decide) (by decide) (by decide) (by decide)
      · exact @replaceExt_ext_stem ip (".docx") SL E P R2 (['d', 'o', 'c', 'x']) hip
          hSL hE0 hE hP0 hP hR2 (by decide) (by decide) (by decide) (by decide)
      · exact absurd hsimple (by decide)
    · have hfor : getOutputFormats ip = [(".pdf"), (".doc"), (".pdf+.doc")] := by
        unfold getOutputFormats
        rw [hext]
        decide
      rw [hfor] at hspec
      simp only [List.mem_cons, List.not_mem_nil, or_false] at hspec
      rcases hspec with h | h | h <;> subst h
      · exact @replaceExt_ext_stem ip (".pdf") SL E P R2 (['p', 'd', 'f']) hip hSL hE0
          hE hP0 hP hR2 (by decide) (by decide) (by decide) (by decide)
      · exact @replaceExt_ext_stem ip (".doc") SL E P R2 (['d', 'o', 'c']) hip hSL hE0
          hE hP0 hP hR2 (by decide) (by decide) (by decide) (by decide)
      · exact absurd hsimple (by decide)
  exact ⟨hrun, hpair.1, hpair.2, FS.read_write_self fs _ out⟩

/-- C4, witness: converting `/d/r.docx` to `.pdf`. -/
theorem c4_witness :
    (convertJob convOk fsDocx ("/d/r.docx") (".pdf")).2.2 =
      Except.ok [replaceExt ("/d/r.docx") (".pdf")] ∧
    getExtension (replaceExt ("/d/r.docx") (".pdf")) = (".pdf") := by
  have h := c4_simple_specifier_output convOk fsDocx ("/d/r.docx") (".pdf") ("X")
    (("OUT") ++ (".pdf")) (by decide) (by decide) (by decide) (by decide) (by decide)
  exact ⟨by rw [h.1], h.2.1⟩

/-! ### Claim C5 -/

/-- C5: a composite catalog specifier is split and run element by
element in declared order: the trace contains one converter call per
element in that order, and the output paths come back in the same
order. -/
theorem c5_composite_order (conv : Conv) (fs : FS) (ip spec buf : String)
    (out : String → String)
    (hsupp : isSupportedFile ip = true)
    (hspec : spec ∈ getOutputFormats ip)
    (hplus : hasPlus spec = true)
    (hread : fs.read ip = some buf)
    (hconv : ∀ f ∈ splitFormats spec, conv buf f = Except.ok (out f)) :
    (convertJob conv fs ip spec).2.2 =
      Except.ok ((splitFormats spec).map (fun f => replaceExt ip f)) ∧
    (convertJob conv fs ip spec).1.filterMap convCallFmt = splitFormats spec := by
  have hsf : specFormats spec = splitFormats spec := by
    unfold specFormats
    rw [hplus, if_pos rfl]
  have hne : ∀ f ∈ splitFormats spec, replaceExt ip f ≠ ip := by
    have h2 := catalog_no_self_overwrite hsupp hspec
    rw [hsf] at h2
    exact h2
  have hrun := cdm_success conv ip buf out (splitFormats spec) fs hread hconv hne
  rw [convertJob_eq_multiple, hsf, hrun]
  exact ⟨rfl, blocks_filterMap ip (fun f => replaceExt ip f) (splitFormats spec)⟩

/-- C5, witness: `.pdf+.doc` on `/d/r.docx` yields the two outputs in
declared order. -/
theorem c5_witness :
    (convertJob convOk fsDocx ("/d/r.docx") (".pdf+.doc")).2.2 =
      Except.ok [("/d/r.pdf"), ("/d/r.doc")] := by
  have h := c5_composite_order convOk fsDocx ("/d/r.docx") (".pdf+.doc") ("X")
    (fun f => ("OUT") ++ f) (by decide) (by decide) (by decide) (by decide) (by decide)
  rw [h.1]
  decide

/-! ### Claim C8 -/

/-- C8: re-running a `ConversionJob` that just succeeded succeeds again
with the same trace (hence the same writes, overwriting the outputs of
the first run) and the same output paths. -/
theorem c8_idempotent_success (conv : Conv) (fs : FS) (ip spec : String)
    (tr : List Event) (fs1 : FS) (paths : List String)
    (hsupp : isSupportedFile ip = true)
    (hspec : spec ∈ getOutputFormats ip)
    (h1 : convertJob conv fs ip spec = (tr, fs1, Except.ok paths)) :
    (convertJob conv fs1 ip spec).1 = tr ∧
    (convertJob conv fs1 ip spec).2.2 = Except.ok paths := by
  have hne := catalog_no_self_overwrite hsupp hspec
  have h1m : convertDocumentMultiple conv fs ip (specFormats spec) =
      (tr, fs1, Except.ok paths) := by
    rw [← convertJob_eq_multiple]
    exact h1
  have hpres := cdm_read_preserved conv ip (specFormats spec) fs hne
  rw [h1m] at hpres
  have hp2 : fs1.read ip = fs.read ip := hpres
  obtain ⟨htr, hres, _⟩ := cdm_determined conv ip (specFormats spec) fs1 fs hp2
  rw [convertJob_eq_multiple]
  constructor
  · rw [htr, h1m]
  · rw [hres, h1m]

/-- C8, witness: converting `/d/r.docx` to `.pdf` a second time, on the
filesystem left by the first run, returns the same output path. -/
theorem c8_witness :
    (convertJob convOk (fsDocx.write ("/d/r.pdf") (("OUT") ++ (".pdf")))
      ("/d/r.docx") (".pdf")).2.2 = Except.ok [("/d/r.pdf")] := by
  have h := c8_idempotent_success convOk fsDocx ("/d/r.docx") (".pdf")
    [Event.read ("/d/r.docx"), Event.convCall (".pdf"), Event.write ("/d/r.pdf")]
    (fsDocx.write ("/d/r.pdf") (("OUT") ++ (".pdf"))) [("/d/r.pdf")]
    (by decide) (by decide) (by decide)
  exact h.2

/-! ### Claim C9 -/

theorem slash_in_ext {pre : List Char} : ∀ {l : List Char},
    l.dropWhile (fun c => c ≠ '.') = '.' :: pre →
    ¬ '.' ∈ l.takeWhile (fun c => c ≠ '/') →
    '/' ∈ l.takeWhile (fun c => c ≠ '.') := by
  intro l
  induction l with
  | nil => intro hdw _; simp at hdw
  | cons c0 cs ih =>
    intro hdw h
    by_cases hc0 : c0 = '.'
    · exfalso
      apply h
      subst hc0
      rw [List.takeWhile_cons, if_pos (by decide)]
      exact List.mem_cons_self _ _
    · by_cases hc0s : c0 = '/'
      · subst hc0s
        rw [List.takeWhile_cons, if_pos (by decide)]
        exact List.mem_cons_self _ _
      · have hdw2 : cs.dropWhile (fun c => c ≠ '.') = '.' :: pre := by
          rw [List.dropWhile_cons, if_pos (by simp [hc0])] at hdw
          exact hdw
        have h2 : ¬ '.' ∈ cs.takeWhile (fun c => c ≠ '/') := by
          intro hmem
          apply h
          rw [List.takeWhile_cons, if_pos (by simp [hc0s])]
          exact List.mem_cons_of_mem _ hmem
        rw [List.takeWhile_cons, if_pos (by simp [hc0])]
        exact List.mem_cons_of_mem _ (ih hdw2 h2)

/-- C9: when the final path segment holds no dot, the derivation of
`convertDocument` either leaves the path unchanged (no dot anywhere, so
the output overwrites the input), or the last dot sits in a directory
segment and the replacement consumes the slash after it, rewriting the
directory portion instead of appending an extension; a sibling output
thus only arises when the final segment has an extension of its own. -/
theorem c9_extensionless_final_segment (p fmt : String)
    (h : ¬ '.' ∈ p.data.reverse.takeWhile (fun c => c ≠ '/')) :
    ('.' ∉ p.data ∧ replaceExt p fmt = p) ∨
    (∃ B A : List Char, p.data = B ++ '.' :: A ∧ '.' ∉ A ∧ '/' ∈ A ∧
      (replaceExt p fmt).data = B ++ fmt.data) := by
  by_cases hdot : '.' ∈ p.data
  · right
    have hdotr : '.' ∈ p.data.reverse := List.mem_reverse.mpr hdot
    have hne : p.data.reverse.dropWhile (fun c => c ≠ '.') ≠ [] := dw_ne_ne_nil hdotr
    cases hdw : p.data.reverse.dropWhile (fun c => c ≠ '.') with
    | nil => exact absurd hdw hne
    | cons a pre =>
      have ha : a = '.' := dw_ne_head hdw
      subst ha
      have htw0 : p.data.reverse.takeWhile (fun c => c ≠ '.') ≠ [] := by
        cases hrc : p.data.reverse with
        | nil => rw [hrc] at hdotr; simp at hdotr
        | cons c0 cs =>
          have hc0 : c0 ≠ '.' := by
            intro hc
            apply h
            rw [hrc, hc, List.takeWhile_cons, if_pos (by decide)]
            exact List.mem_cons_self _ _
          rw [List.takeWhile_cons, if_pos (by simp [hc0])]
          simp
      obtain ⟨T, hT⟩ : ∃ T, p.data.reverse.takeWhile (fun c => c ≠ '.') = T := ⟨_, rfl⟩
      have htwdw := twdw_ne '.' p.data.reverse
      rw [hdw, hT] at htwdw
      rw [hT] at htw0
      refine ⟨pre.reverse, T.reverse, ?_, ?_, ?_, ?_⟩
      · have h2 := congrArg List.reverse htwdw
        rw [List.reverse_reverse] at h2
        rw [← h2]
        simp [List.reverse_append, List.append_assoc]
      · intro hc
        have hc2 := List.mem_reverse.mp hc
        rw [← hT] at hc2
        exact mem_tw_ne hc2 rfl
      · rw [List.mem_reverse, ← hT]
        exact slash_in_ext hdw h
      · unfold replaceExt
        rw [hdw]
        dsimp only
        rw [hT, if_neg htw0]
        rfl
  · left
    refine ⟨hdot, ?_⟩
    have hdwnil : p.data.reverse.dropWhile (fun c => c ≠ '.') = [] := by
      cases hdw : p.data.reverse.dropWhile (fun c => c ≠ '.') with
      | nil => rfl
      | cons a pre =>
        have ha : a = '.' := dw_ne_head hdw
        subst ha
        exfalso
        apply hdot
        rw [← List.mem_reverse]
        have h2 := twdw_ne '.' p.data.reverse
        rw [hdw] at h2
        rw [← h2]
        exact List.mem_append_right _ (List.mem_cons_self _ _)
    unfold replaceExt
    rw [hdwnil]

/-- C9, witness: `a.b/c` has a dot only in its directory segment; the
derivation rewrites the directory portion, producing `a.pdf`. -/
theorem c9_witness :
    ('.' ∉ ("a.b/c").data ∧ replaceExt ("a.b/c") (".pdf") = ("a.b/c")) ∨
    (∃ B A : List Char, ("a.b/c").data = B ++ '.' :: A ∧ '.' ∉ A ∧ '/' ∈ A ∧
      (replaceExt ("a.b/c") (".pdf")).data = B ++ (".pdf").data) :=
  c9_extensionless_final_segment ("a.b/c") (".pdf") (by decide)

/-! ### Claim C10 -/

theorem tw_ne_stop_of_mem {ch : Char} : ∀ {l r : List Char}, ch ∈ l →
    (l ++ r).takeWhile (fun c => c ≠ ch) = l.takeWhile (fun c => c ≠ ch) := by
  intro l
  induction l with
  | nil => intro r h; simp at h
  | cons a t ih =>
    intro r h
    by_cases ha : a = ch
    · subst ha
      rw [List.cons_append, tw_ne_stop, tw_ne_stop]
    · rcases List.mem_cons.mp h with h1 | h1
      · exact absurd h1.symm ha
      · rw [List.cons_append, List.takeWhile_cons, if_pos (by simp [ha]),
          List.takeWhile_cons, if_pos (by simp [ha]), ih h1]

/-- The characters of the generated command, decomposed around the raw
path and the delimiters the parse cares about. -/
theorem cmd_data (p : String) :
    (copyFilesToClipboardCmd [p]).data =
      ("osascript -e ").data ++ sqChar ::
        (("set the clipboard to \x7b").data ++
          (("POSIX file ").data ++ '"' ::
            (p.data ++ '"' :: (("\x7d").data ++ [sqChar])))) := by
  unfold copyFilesToClipboardCmd clipboardScript sq
  rw [show String.intercalate (", ") ([p].map posixFileLit) =
      ("POSIX file \"") ++ p ++ ("\"") from rfl]
  simp only [String.data_append]
  simp [List.append_assoc, List.cons_append]

/-- With no single quote in the path, the shell reads the whole script as
the single-quoted argument. -/
theorem shellArg_no_sq (p : String) (hp : ¬ sqChar ∈ p.data) :
    (shellSingleQuotedArg (copyFilesToClipboardCmd [p])).data =
      ("set the clipboard to \x7b").data ++
        (("POSIX file ").data ++ '"' :: (p.data ++ '"' :: ("\x7d").data)) := by
  have hAsq : ∀ c ∈ ("osascript -e ").data, c ≠ sqChar := by decide
  have hS1sq : ∀ c ∈ ("set the clipboard to \x7b").data, c ≠ sqChar := by decide
  have hP0sq : ∀ c ∈ ("POSIX file ").data, c ≠ sqChar := by decide
  have hRBsq : ∀ c ∈ ("\x7d").data, c ≠ sqChar := by decide
  have hpsq : ∀ c ∈ p.data, c ≠ sqChar := fun c hc he => hp (he ▸ hc)
  unfold shellSingleQuotedArg
  rw [cmd_data p, dw_ne_all hAsq, dw_ne_stop]
  simp only [List.drop_succ_cons, List.drop_zero]
  rw [tw_ne_all hS1sq, tw_ne_all hP0sq, List.takeWhile_cons, if_pos (by decide),
    tw_ne_all hpsq, List.takeWhile_cons, if_pos (by decide), tw_ne_all hRBsq,
    tw_ne_stop]
  simp

/-- A single quote inside the path ends the shell argument early, inside
the path. -/
theorem shellArg_with_sq (p : String) (hp : sqChar ∈ p.data) :
    (shellSingleQuotedArg (copyFilesToClipboardCmd [p])).data =
      ("set the clipboard to \x7b").data ++
        (("POSIX file ").data ++ '"' ::
          (p.data.takeWhile (fun c => c ≠ sqChar))) := by
  have hAsq : ∀ c ∈ ("osascript -e ").data, c ≠ sqChar := by decide
  have hS1sq : ∀ c ∈ ("set the clipboard to \x7b").data, c ≠ sqChar := by decide
  have hP0sq : ∀ c ∈ ("POSIX file ").data, c ≠ sqChar := by decide
  unfold shellSingleQuotedArg
  rw [cmd_data p, dw_ne_all hAsq, dw_ne_stop]
  simp only [List.drop_succ_cons, List.drop_zero]
  rw [tw_ne_all hS1sq, tw_ne_all hP0sq, List.takeWhile_cons, if_pos (by decide)]
  rw [tw_ne_stop_of_mem hp]

theorem fdq_of_list (L : List Char) (s : String) (hs : s.data = L) :
    (firstDoubleQuoted s).data =
      ((L.dropWhile (fun c => c ≠ '"')).drop 1).takeWhile (fun c => c ≠ '"') := by
  unfold firstDoubleQuoted
  rw [hs]

/-- A quote-free path survives the single-quote and double-quote parse of
the generated command intact. -/
theorem fdq_roundtrip (p : String) (hp1 : ¬ sqChar ∈ p.data) (hp2 : ¬ '"' ∈ p.data) :
    firstDoubleQuoted (shellSingleQuotedArg (copyFilesToClipboardCmd [p])) = p := by
  have hS1q : ∀ c ∈ ("set the clipboard to \x7b").data, c ≠ '"' := by decide
  have hP0q : ∀ c ∈ ("POSIX file ").data, c ≠ '"' := by decide
  have hpq : ∀ c ∈ p.data, c ≠ '"' := fun c hc he => hp2 (he ▸ hc)
  have h := fdq_of_list _ _ (shellArg_no_sq p hp1)
  rw [dw_ne_all hS1q, dw_ne_all hP0q, dw_ne_stop] at h
  simp only [List.drop_succ_cons, List.drop_zero] at h
  rw [tw_ne_all hpq, List.takeWhile_cons] at h
  rw [if_neg (by decide)] at h
  rw [List.append_nil] at h
  have h2 : firstDoubleQuoted (shellSingleQuotedArg (copyFilesToClipboardCmd [p])) =
      String.mk p.data := congrArg String.mk h
  rw [h2]

/-- A single quote in the path truncates the parse strictly inside the
path: what comes back is shorter than the path. -/
theorem fdq_ne_of_sq (p : String) (hp : sqChar ∈ p.data) :
    firstDoubleQuoted (shellSingleQuotedArg (copyFilesToClipboardCmd [p])) ≠ p := by
  have hS1q : ∀ c ∈ ("set the clipboard to \x7b").data, c ≠ '"' := by decide
  have hP0q : ∀ c ∈ ("POSIX file ").data, c ≠ '"' := by decide
  have h := fdq_of_list _ _ (shellArg_with_sq p hp)
  rw [dw_ne_all hS1q, dw_ne_all hP0q, dw_ne_stop] at h
  simp only [List.drop_succ_cons, List.drop_zero] at h
  intro heq
  have hlen : (firstDoubleQuoted (shellSingleQuotedArg
      (copyFilesToClipboardCmd [p]))).data.length = p.data.length := by
    rw [heq]
  rw [h] at hlen
  have hlt : ((p.data.takeWhile (fun c => c ≠ sqChar)).takeWhile
      (fun c => c ≠ '"')).length < p.data.length :=
    lt_of_le_of_lt (tw_le _) (tw_ne_lt hp)
  omega

/-- A double quote in the path (with no single quote) ends the
AppleScript string literal early: what comes back is shorter than the
path. -/
theorem fdq_ne_of_quote (p : String) (hpq : '"' ∈ p.data) (hps : ¬ sqChar ∈ p.data) :
    firstDoubleQuoted (shellSingleQuotedArg (copyFilesToClipboardCmd [p])) ≠ p := by
  have hS1q : ∀ c ∈ ("set the clipboard to \x7b").data, c ≠ '"' := by decide
  have hP0q : ∀ c ∈ ("POSIX file ").data, c ≠ '"' := by decide
  have h := fdq_of_list _ _ (shellArg_no_sq p hps)
  rw [dw_ne_all hS1q, dw_ne_all hP0q, dw_ne_stop] at h
  simp only [List.drop_succ_cons, List.drop_zero] at h
  rw [tw_ne_stop_of_mem hpq] at h
  intro heq
  have hlen : (firstDoubleQuoted (shellSingleQuotedArg
      (copyFilesToClipboardCmd [p]))).data.length = p.data.length := by
    rw [heq]
  rw [h] at hlen
  have hlt : ((p.data.takeWhile (fun c => c ≠ '"'))).length < p.data.length :=
    tw_ne_lt hpq
  omega

/-- C10: `copyFilesToClipboard` builds its shell command by splicing each
path verbatim, with no escaping, into the double-quoted AppleScript
literal inside the single-quoted shell argument (the command is literally
the concatenation of fixed fragments around the raw path), and
consequently the shell and AppleScript delimiters recover the path as a
correctly delimited `POSIX file` literal exactly for paths free of single
and double quotes: quote-free paths round trip, while a path containing
either quote character comes back truncated. -/
theorem c10_clipboard_interpolation (p : String) :
    copyFilesToClipboardCmd [p] =
      ("osascript -e ") ++ sq ++ (("set the clipboard to \x7b") ++
        (("POSIX file \"") ++ p ++ ("\"")) ++ ("\x7d")) ++ sq ∧
    ((¬ sqChar ∈ p.data ∧ ¬ '"' ∈ p.data) →
      firstDoubleQuoted (shellSingleQuotedArg (copyFilesToClipboardCmd [p])) = p) ∧
    ((sqChar ∈ p.data ∨ '"' ∈ p.data) →
      firstDoubleQuoted (shellSingleQuotedArg (copyFilesToClipboardCmd [p])) ≠ p) := by
  refine ⟨rfl, ?_, ?_⟩
  · intro hh
    exact fdq_roundtrip p hh.1 hh.2
  · intro hq
    by_cases hps : sqChar ∈ p.data
    · exact fdq_ne_of_sq p hps
    · have hpq : '"' ∈ p.data := by
        rcases hq with h1 | h1
        · exact absurd h1 hps
        · exact h1
      exact fdq_ne_of_quote p hpq hps

/-- C10, witness: a quote-free path round trips through the generated
command. -/
theorem c10_witness :
    firstDoubleQuoted (shellSingleQuotedArg (copyFilesToClipboardCmd
      [("/tmp/out.pdf")])) = ("/tmp/out.pdf") :=
  (c10_clipboard_interpolation ("/tmp/out.pdf")).2.1 (by decide)

end ConvertDoc
